import Mathlib

/-!
The package limitedpool: a bounded object pool with a waiter queue.

A shallow embedding of `limitedpool.go`.  The pool's mutex makes the locked part
of `Get` and the whole of `Put` atomic, so each is a function on the pool state.
Instances (`interface{}` values) are compared by identity and are modelled as
natural numbers; a `wait` channel is identified by a natural number as well.
-/

namespace LimitedPool

/-- An instance handed out by the pool (an `interface{}` value, by identity). -/
abbrev Item := Nat

/-- A Go slice of instances: its elements (so `len` is their number) and its
capacity `cap`. -/
structure Slice where
  elems : List Item
  cap : Nat
deriving DecidableEq, Repr

namespace Slice

/-- The slice `make([]interface{}, 0, limit)`. -/
def make (limit : Nat) : Slice := ⟨[], limit⟩

/-- The length `len(s)`. -/
def len (s : Slice) : Nat := s.elems.length

/-- The slice `s[1:]`: the first element is dropped and the capacity shrinks by
one with it, since the capacity is counted from the slice's first element. -/
def tail (s : Slice) : Slice := ⟨s.elems.tail, s.cap - 1⟩

/-- The slice `append(s, x)`.  While `len(s) < cap(s)` the capacity is kept.  On a
full slice the runtime allocates a new array; its capacity is the runtime's
choice, here `grow (cap s)`, and the language guarantees only that the new
element fits. -/
def append (grow : Nat → Nat) (s : Slice) (x : Item) : Slice :=
  if s.len < s.cap then ⟨s.elems ++ [x], s.cap⟩
  else ⟨s.elems ++ [x], max (s.len + 1) (grow s.cap)⟩

end Slice

/-- The queue entry `ctxChan` of a blocked `Get`: `wait` names the channel the
call receives on, `done` tells whether the call's `ctx.Done()` has fired.  An
entry whose `done` is false belongs to a call blocked receiving on `wait`; once
`done` has fired the call has taken the cancellation case of its `select`, so
at every entry exactly one case of the `select` in `Put` is ready. -/
structure CtxChan where
  done : Bool
  wait : Nat
deriving DecidableEq, Repr

end LimitedPool

/-- The pool state: the fields `free`, `used` and `queue` of the Go struct.  The
mutex is the atomicity of the operations below; the creator is called by the
caller of `Get` (see `GetResult.fresh`).  The Go `int` field `used` is an
unbounded integer here: it moves by one per call and stays far from the bounds
of the machine type. -/
structure LimitedPool where
  free : LimitedPool.Slice
  used : Int
  queue : List LimitedPool.CtxChan
deriving DecidableEq, Repr

namespace LimitedPool

/-- The pool `New(limit, creator)`. -/
def New (limit : Nat) : LimitedPool :=
  { free := Slice.make limit, used := 0, queue := [] }

/-- How a call of `Get` leaves its locked part. -/
inductive GetResult where
  /-- The call returns the instance `res` taken from `free`. -/
  | taken (res : Item)
  /-- The call returns `this.creator()`, called after the unlock. -/
  | fresh
  /-- The call has queued `cc` and blocks in its `select`. -/
  | parked (cc : CtxChan)
deriving DecidableEq, Repr

/-- The locked part of `Get(ctx)`: `ctxDone` is the state of `ctx.Done()` and
`wait` the channel the call would make. -/
def Get (p : LimitedPool) (ctxDone : Bool) (wait : Nat) : LimitedPool × GetResult :=
  match p.free.elems with
  | res :: _ =>
    ({ p with free := p.free.tail, used := p.used + 1 }, .taken res)
  | [] =>
    if p.used < (p.free.cap : Int) then
      ({ p with used := p.used + 1 }, .fresh)
    else
      let cc : CtxChan := { done := ctxDone, wait := wait }
      ({ p with queue := p.queue ++ [cc] }, .parked cc)

/-- The `select` that ends a parked `Get`: the results of the cases that are
ready, given what a `Put` sends on `wait` (if anything) and whether
`ctx.Done()` has fired.  `some x` is the received instance, `none` is `nil`; the
empty list means the call stays blocked. -/
def Get.select (sent : Option Item) (ctxDone : Bool) : List (Option Item) :=
  (match sent with
   | some x => [some x]
   | none => []) ++ (if ctxDone then [none] else [])

/-- The loop of `Put` over the queue.  At an entry whose `done` has fired the
first case of the `select` runs and the scan goes on; at an entry blocked
receiving the send runs and the loop returns.  The result is the entry that
received the item together with `queue[i+1:]`, or `none` when the loop ends. -/
def Put.scan : List CtxChan → Option (CtxChan × List CtxChan)
  | [] => none
  | cc :: rest => if cc.done then Put.scan rest else some (cc, rest)

/-- The entries whose `wait` channel the loop of `Put` closes without sending:
those in front of the first entry whose `done` has not fired. -/
def Put.skipped : List CtxChan → List CtxChan
  | [] => []
  | cc :: rest => if cc.done then cc :: Put.skipped rest else []

/-- What a call of `Put` did to the waiters. -/
structure PutResult where
  /-- The waiter that received on its `wait` channel and the instance sent to
  it, if any. -/
  delivered : Option (CtxChan × Item)
  /-- The waiters resolved with no instance (channel closed, nothing sent). -/
  closed : List CtxChan
deriving DecidableEq, Repr

/-- The call `Put(item)`. -/
def Put (grow : Nat → Nat) (p : LimitedPool) (item : Item) : LimitedPool × PutResult :=
  match Put.scan p.queue with
  | some (cc, rest) =>
    ({ p with queue := rest }, { delivered := some (cc, item), closed := Put.skipped p.queue })
  | none =>
    ({ p with queue := [], free := p.free.append grow item, used := p.used - 1 },
     { delivered := none, closed := Put.skipped p.queue })

/-- The call `Count()`: `used` and `cap(this.free) - used`. -/
def Count (p : LimitedPool) : Int × Int :=
  (p.used, (p.free.cap : Int) - p.used)

end LimitedPool

/-! ## The pool with its callers -/

/-- The pool together with what its callers hold: `held` lists the instances a
`Get` has returned and no `Put` has given back, `created` counts the calls of the
creator and `chans` the `wait` channels made. -/
structure World where
  pool : LimitedPool
  held : List LimitedPool.Item
  created : Nat
  chans : Nat
deriving DecidableEq, Repr

namespace World

open LimitedPool

/-- One event at the pool. -/
inductive Call where
  /-- A call `Get(ctx)`; `ctxDone` tells whether `ctx` is already cancelled. -/
  | get (ctxDone : Bool)
  /-- A call `Put(item)` by a caller holding `item`. -/
  | put (item : Item)
  /-- The context of the call blocked on channel `wait` fires; that call
  returns `nil`. -/
  | cancel (wait : Nat)
deriving DecidableEq, Repr

/-- The world of `New(limit, creator)`. -/
def init (limit : Nat) : World :=
  { pool := New limit, held := [], created := 0, chans := 0 }

/-- The queue after the context of the call blocked on `wait` has fired. -/
def fire (wait : Nat) (queue : List CtxChan) : List CtxChan :=
  queue.map fun cc => if cc.wait = wait then { cc with done := true } else cc

/-- One event: `creator k` is the instance the creator returns at its call
number `k`.  A `Put` of an instance that is not held is not an event of the
system (`none`).  An instance sent to a waiter stays held: it passes from the
caller of `Put` to the caller of the blocked `Get`. -/
def step (creator : Nat → Item) (grow : Nat → Nat) (w : World) : Call → Option World
  | .get ctxDone =>
    match Get w.pool ctxDone w.chans with
    | (p, .taken res) => some { w with pool := p, held := res :: w.held }
    | (p, .fresh) =>
      some { w with pool := p, held := creator w.created :: w.held, created := w.created + 1 }
    | (p, .parked _) => some { w with pool := p, chans := w.chans + 1 }
  | .put item =>
    if item ∈ w.held then
      match Put grow w.pool item with
      | (p, ⟨some _, _⟩) => some { w with pool := p }
      | (p, ⟨none, _⟩) => some { w with pool := p, held := w.held.erase item }
    else none
  | .cancel wait =>
    some { w with pool := { w.pool with queue := fire wait w.pool.queue } }

/-- A sequence of events, from left to right. -/
def run (creator : Nat → Item) (grow : Nat → Nat) : World → List Call → Option World
  | w, [] => some w
  | w, c :: cs =>
    match step creator grow w c with
    | some w1 => run creator grow w1 cs
    | none => none

/-- A state of the pool that some sequence of events reaches from
`New(limit, creator)`. -/
def Reachable (creator : Nat → Item) (grow : Nat → Nat) (limit : Nat) (w : World) : Prop :=
  ∃ cs : List Call, run creator grow (init limit) cs = some w

end World

/-! ## Growth of a full slice in the gc runtime -/

/-- The allocator's size classes in bytes (runtime `sizeclasses.go`). -/
def sizeClasses : List Nat :=
  [8, 16, 24, 32, 48, 64, 80, 96, 112, 128, 144, 160, 176, 192, 208, 224, 240, 256, 288, 320,
   352, 384, 416, 448, 480, 512, 576, 640, 704, 768, 896, 1024, 1152, 1280, 1408, 1536, 1792,
   2048, 2304, 2688, 3072, 3200, 3456, 4096, 4864, 5120, 5376, 6144, 6528, 6784, 6912, 8192,
   9472, 9728, 10240, 10880, 12288, 13568, 14336, 16384, 18432, 19072, 20480, 21760, 24576,
   27264, 28672, 32768]

/-- The runtime's `roundupsize(size, noscan)` for a type with pointers
(`noscan` false): the bytes usable in the block the allocator returns for a
request of `size` bytes.  A small request above 512 bytes carries a malloc
header of 8 bytes, which is taken off the size class again; a large request is
rounded up to whole pages of 8192 bytes. -/
def roundupsize (size : Nat) : Nat :=
  if size ≤ 32768 - 8 then
    let reqSize := if 512 < size then size + 8 else size
    match sizeClasses.find? (fun k => decide (reqSize ≤ k)) with
    | some k => k - (reqSize - size)
    | none => size
  else (size + 8191) / 8192 * 8192

/-- The capacity the gc runtime (64-bit, 16-byte `interface{}` elements) gives
`append` of one element on a full slice of capacity `c` (`growslice`): the new
capacity is `c + 1` when that exceeds `2 * c`, twice the old capacity below 256
and `c + (c + 768) / 4` from there on, and is then raised to what the allocated
block holds. -/
def gcGrow (c : Nat) : Nat :=
  let newcap :=
    if 2 * c < c + 1 then c + 1
    else if c < 256 then 2 * c
    else c + (c + 3 * 256) / 4
  roundupsize (16 * newcap) / 16

namespace World

open LimitedPool

/-- The calls that overrun a pool of limit 26: fill it, return everything, take
one instance and return it (the `append` that reallocates), then 27 calls of
`Get`. -/
def overrun : List Call :=
  List.replicate 26 (.get false) ++ (List.range 26).map .put ++ [.get false, .put 0]
    ++ List.replicate 27 (.get false)

/-- The calls that leave a pool of limit 26 with `free` empty and 26 instances
held: `overrun` without its last `Get`. -/
def exhaust : List Call :=
  List.replicate 26 (.get false) ++ (List.range 26).map .put ++ [.get false, .put 0]
    ++ List.replicate 26 (.get false)

end World

namespace LimitedPool

/-- The calls `Put(x1)`, ..., `Put(xk)` one after the other. -/
def Puts (grow : Nat → Nat) (p : LimitedPool) : List Item → LimitedPool
  | [] => p
  | x :: xs => Puts grow (Put grow p x).1 xs

/-- Calls of `Get` one after the other, each with the state of its context and
its channel; the results are listed in the order of the calls. -/
def Gets (p : LimitedPool) : List (Bool × Nat) → LimitedPool × List GetResult
  | [] => (p, [])
  | (ctxDone, wait) :: cs =>
    let r := Get p ctxDone wait
    let rs := Gets r.1 cs
    (rs.1, r.2 :: rs.2)

end LimitedPool

/-! ## The whole call of Get, and what a Put closes -/

namespace LimitedPool

/-- How a call of `Get` ends for its caller on the paths that do not block. -/
inductive GetReturn where
  /-- The call returns the instance `res`. -/
  | value (res : Item)
  /-- The creator panicked; `Get` has no `recover`, the panic unwinds to the
  caller of `Get`. -/
  | panic
  /-- The call is blocked in its `select` on `cc`. -/
  | blocked (cc : CtxChan)
deriving DecidableEq, Repr

/-- The call `Get(ctx)` with the creator call included: `creator` is what
`this.creator()` does at this call, `some x` for returning `x` and `none` for a
panic.  The creator runs after `this.mx.Unlock()` and `Get` defers nothing, so a
panic leaves the pool as the locked part left it. -/
def Get.call (p : LimitedPool) (ctxDone : Bool) (wait : Nat) (creator : Option Item) :
    LimitedPool × GetReturn :=
  match Get p ctxDone wait with
  | (p1, .taken res) => (p1, .value res)
  | (p1, .fresh) =>
    match creator with
    | some x => (p1, .value x)
    | none => (p1, .panic)
  | (p1, .parked cc) => (p1, .blocked cc)

/-- The waiters the loop of `Put` visits: those it skips as cancelled and the
one it sends to.  The loop runs `close(cc.wait)` on each of them. -/
def PutResult.visited (r : PutResult) : List CtxChan :=
  r.closed ++ (match r.delivered with
    | some (cc, _) => [cc]
    | none => [])

end LimitedPool

namespace World

open LimitedPool

/-- The channels of the queued waiters, in queue order. -/
def waits (w : World) : List Nat := w.pool.queue.map CtxChan.wait

/-- The channels closed by one event: a `Put` closes the channels of the
waiters it visits, a `Get` or a cancellation closes none. -/
def closedBy (grow : Nat → Nat) (w : World) : Call → List Nat
  | .put item =>
    if item ∈ w.held then (Put grow w.pool item).2.visited.map CtxChan.wait else []
  | .get _ => []
  | .cancel _ => []

/-- The channels an instance is sent on by one event: a `Put` that finds a
waiter blocked receiving sends on that waiter's channel. -/
def sentBy (grow : Nat → Nat) (w : World) : Call → List Nat
  | .put item =>
    if item ∈ w.held then
      match (Put grow w.pool item).2.delivered with
      | some (cc, _) => [cc.wait]
      | none => []
    else []
  | .get _ => []
  | .cancel _ => []

/-- All channels closed during a sequence of events, one entry per `close`. -/
def closeLog (creator : Nat → Item) (grow : Nat → Nat) : World → List Call → List Nat
  | _, [] => []
  | w, c :: cs =>
    closedBy grow w c ++
      (match step creator grow w c with
       | some w1 => closeLog creator grow w1 cs
       | none => [])

/-- All channels an instance is sent on during a sequence of events, one entry
per send. -/
def sendLog (creator : Nat → Item) (grow : Nat → Nat) : World → List Call → List Nat
  | _, [] => []
  | w, c :: cs =>
    sentBy grow w c ++
      (match step creator grow w c with
       | some w1 => sendLog creator grow w1 cs
       | none => [])

end World

open LimitedPool World

/-! ## Lemmas on runs -/

theorem World.run_append (creator : Nat → Item) (grow : Nat → Nat) (cs ds : List Call) :
    ∀ w : World, run creator grow w (cs ++ ds)
      = (run creator grow w cs).bind fun w1 => run creator grow w1 ds := by
  induction cs with
  | nil => intro w; rfl
  | cons c cs ih =>
    intro w
    simp only [List.cons_append, run]
    cases step creator grow w c with
    | none => rfl
    | some w1 => simpa using ih w1

/-- Calls of `Get` on a pool whose `free` holds `xs` take them in order. -/
theorem World.run_get_free (creator : Nat → Item) (grow : Nat → Nat) (b : Bool) :
    ∀ (xs : List Item) (c : Nat) (u : Int) (q : List CtxChan) (held : List Item) (n m : Nat),
      run creator grow ⟨⟨⟨xs, c⟩, u, q⟩, held, n, m⟩ (List.replicate xs.length (.get b))
        = some ⟨⟨⟨[], c - xs.length⟩, u + xs.length, q⟩, xs.reverse ++ held, n, m⟩ := by
  intro xs
  induction xs with
  | nil => intro c u q held n m; simp [run]
  | cons x xs ih =>
    intro c u q held n m
    simp only [List.length_cons, List.replicate_succ, run, step, Get, Slice.tail, List.tail_cons]
    rw [ih]
    simp only [List.reverse_cons, List.append_assoc, List.singleton_append, Nat.cast_add,
      Nat.cast_one]
    congr 3
    · simp only [Slice.mk.injEq, true_and]; omega
    · omega


theorem World.run_overrun_prefix (grow : Nat → Nat) :
    run id grow (init 26) (List.replicate 26 (.get false) ++ (List.range 26).map .put ++ [.get false])
      = some ⟨⟨⟨(List.range 26).tail, 25⟩, 1, []⟩, [0], 26, 0⟩ := by
  simp [run, step, Get, Put, Put.scan, Put.skipped, Slice.append, Slice.tail, Slice.len, init, New,
    Slice.make, List.replicate, List.range_succ]

/-! ## The claims -/

/-- C1 (capacity invariant), evaluated at a failing input.  On `New(26, creator)`
with a creator returning the instances 0, 1, 2, ..., the calls `overrun` are
all possible (each `Put` returns a held instance), and whenever `append` on the
full slice of capacity 25 allocates capacity 53 or more, they end with
`used = 27` and 27 instances held by callers: `used <= limit` fails. -/
theorem C1_capacity_overrun (grow : Nat → Nat) (h : 53 ≤ grow 25) :
    ∃ w : World, run id grow (init 26) overrun = some w ∧ w.pool.used = 27 ∧
      w.held.length = 27 ∧ ¬ (w.pool.used ≤ 26) ∧
      ¬ (w.pool.used + (w.pool.free.len : Int) ≤ 26) := by
  have hsplit : overrun = (List.replicate 26 (.get false) ++ (List.range 26).map .put
      ++ [.get false]) ++ ([.put 0] ++ (List.replicate ((List.range 26).tail ++ [0]).length
        (.get false) ++ [.get false])) := by decide
  rw [hsplit, run_append, run_overrun_prefix, Option.some_bind, run_append]
  have hput : run id grow ⟨⟨⟨(List.range 26).tail, 25⟩, 1, []⟩, [0], 26, 0⟩ [.put 0]
      = some ⟨⟨⟨(List.range 26).tail ++ [0], max 26 (grow 25)⟩, 0, []⟩, [], 26, 0⟩ := by
    simp [run, step, Put, Put.scan, Slice.append, Slice.len]
  rw [hput, Option.some_bind, run_append, run_get_free, Option.some_bind]
  have hlen : ((List.range 26).tail ++ [0]).length = 26 := by decide
  rw [hlen]
  have hcap : ((0 : Int) + (26 : Nat) < ((max 26 (grow 25) - 26 : Nat) : Int)) := by
    have : 53 ≤ max 26 (grow 25) := le_trans h (le_max_right _ _)
    omega
  have hlast : ∀ H : List Item,
      run id grow ⟨⟨⟨[], max 26 (grow 25) - 26⟩, 0 + ((26 : Nat) : Int), []⟩, H, 26, 0⟩
        [.get false]
      = some ⟨⟨⟨[], max 26 (grow 25) - 26⟩, 0 + ((26 : Nat) : Int) + 1, []⟩, id 26 :: H, 27, 0⟩ := by
    intro H
    simp only [run, step, Get, if_pos hcap]
  rw [hlast]
  refine ⟨_, rfl, ?_⟩
  simp [Slice.len]

/-- Witness of C1: the gc runtime's growth, which allocates capacity 55 for the
full slice of capacity 25. -/
theorem C1_capacity_overrun_witness :
    53 ≤ gcGrow 25 ∧ ∃ w : World, run id gcGrow (init 26) overrun = some w ∧
      w.pool.used = 27 ∧ w.held.length = 27 ∧ ¬ (w.pool.used ≤ 26) ∧
      ¬ (w.pool.used + (w.pool.free.len : Int) ≤ 26) :=
  ⟨by decide, C1_capacity_overrun gcGrow (by decide)⟩

/-! ### Put: the scan of the queue -/

theorem LimitedPool.Put.scan_append (pre : List CtxChan) (cc : CtxChan) (post : List CtxChan)
    (hpre : ∀ w ∈ pre, w.done = true) (hcc : cc.done = false) :
    Put.scan (pre ++ cc :: post) = some (cc, post) := by
  induction pre with
  | nil => simp [Put.scan, hcc]
  | cons w pre ih =>
    have hw : w.done = true := hpre w (List.mem_cons_self _ _)
    simp only [List.cons_append, Put.scan, hw, if_true]
    exact ih fun v hv => hpre v (List.mem_cons_of_mem _ hv)

theorem LimitedPool.Put.skipped_append (pre : List CtxChan) (cc : CtxChan) (post : List CtxChan)
    (hpre : ∀ w ∈ pre, w.done = true) (hcc : cc.done = false) :
    Put.skipped (pre ++ cc :: post) = pre := by
  induction pre with
  | nil => simp [Put.skipped, hcc]
  | cons w pre ih =>
    have hw : w.done = true := hpre w (List.mem_cons_self _ _)
    have ih1 := ih fun v hv => hpre v (List.mem_cons_of_mem _ hv)
    simp [Put.skipped, hw, ih1]

theorem LimitedPool.Put.scan_all_done (q : List CtxChan) (h : ∀ w ∈ q, w.done = true) :
    Put.scan q = none ∧ Put.skipped q = q := by
  induction q with
  | nil => simp [Put.scan, Put.skipped]
  | cons w q ih =>
    have hw : w.done = true := h w (List.mem_cons_self _ _)
    have := ih fun v hv => h v (List.mem_cons_of_mem _ hv)
    simp [Put.scan, Put.skipped, hw, this]

/-- A queue with a waiter whose signal has not fired splits at the first one. -/
theorem LimitedPool.first_pending (q : List CtxChan) (h : ∃ cc ∈ q, cc.done = false) :
    ∃ pre cc post, q = pre ++ cc :: post ∧ (∀ w ∈ pre, w.done = true) ∧ cc.done = false := by
  induction q with
  | nil => simp at h
  | cons w q ih =>
    by_cases hw : w.done = true
    · have h1 : ∃ cc ∈ q, cc.done = false := by
        obtain ⟨cc, hmem, hcc⟩ := h
        rcases List.mem_cons.mp hmem with rfl | hmem
        · simp [hw] at hcc
        · exact ⟨cc, hmem, hcc⟩
      obtain ⟨pre, cc, post, hq, hpre, hcc⟩ := ih h1
      refine ⟨w :: pre, cc, post, by simp [hq], ?_, hcc⟩
      intro v hv
      rcases List.mem_cons.mp hv with rfl | hv
      · exact hw
      · exact hpre v hv
    · exact ⟨[], w, q, rfl, by simp, by simpa using hw⟩

/-- C2 (FIFO hand-off).  If some queued waiter's cancellation signal has not
fired, the queue splits as `pre ++ cc :: post` with `cc` the first such waiter,
and `Put(x)` sends `x` to `cc` and to nobody else, so the `Get` of `cc` returns
`x`; it closes the channels of the waiters `pre` in front (all cancelled)
without an instance, so their `Get` returns `nil`; the queue becomes `post`, and
`used` and `free` are unchanged. -/
theorem C2_fifo_handoff (grow : Nat → Nat) (p : LimitedPool) (x : Item)
    (h : ∃ cc ∈ p.queue, cc.done = false) :
    ∃ pre cc post, p.queue = pre ++ cc :: post ∧ (∀ w ∈ pre, w.done = true) ∧
      cc.done = false ∧
      Put grow p x = ({ p with queue := post }, { delivered := some (cc, x), closed := pre }) ∧
      Get.select (some x) cc.done = [some x] ∧
      (∀ w ∈ pre, Get.select none w.done = [none]) ∧
      (Put grow p x).1.used = p.used ∧ (Put grow p x).1.free = p.free := by
  obtain ⟨pre, cc, post, hq, hpre, hcc⟩ := first_pending p.queue h
  have hput : Put grow p x
      = ({ p with queue := post }, { delivered := some (cc, x), closed := pre }) := by
    simp only [Put, hq, Put.scan_append pre cc post hpre hcc,
      Put.skipped_append pre cc post hpre hcc]
  refine ⟨pre, cc, post, hq, hpre, hcc, hput, ?_, ?_, ?_, ?_⟩
  · simp [Get.select, hcc]
  · intro w hw
    simp [Get.select, hpre w hw]
  · rw [hput]
  · rw [hput]

/-- Witness of C2: a cancelled waiter in front of two pending ones; the first
pending waiter receives the instance 7. -/
theorem C2_fifo_handoff_witness :
    (∃ cc ∈ (⟨⟨[], 1⟩, 1, [⟨true, 0⟩, ⟨false, 1⟩, ⟨false, 2⟩]⟩ : LimitedPool).queue,
        cc.done = false) ∧
    ∃ pre cc post, (⟨⟨[], 1⟩, 1, [⟨true, 0⟩, ⟨false, 1⟩, ⟨false, 2⟩]⟩ : LimitedPool).queue
        = pre ++ cc :: post ∧ (∀ w ∈ pre, w.done = true) ∧ cc.done = false ∧
      Put id ⟨⟨[], 1⟩, 1, [⟨true, 0⟩, ⟨false, 1⟩, ⟨false, 2⟩]⟩ 7
        = ({ (⟨⟨[], 1⟩, 1, [⟨true, 0⟩, ⟨false, 1⟩, ⟨false, 2⟩]⟩ : LimitedPool) with
              queue := post }, { delivered := some (cc, 7), closed := pre }) ∧
      Get.select (some 7) cc.done = [some 7] ∧
      (∀ w ∈ pre, Get.select none w.done = [none]) ∧
      (Put id ⟨⟨[], 1⟩, 1, [⟨true, 0⟩, ⟨false, 1⟩, ⟨false, 2⟩]⟩ 7).1.used = 1 ∧
      (Put id ⟨⟨[], 1⟩, 1, [⟨true, 0⟩, ⟨false, 1⟩, ⟨false, 2⟩]⟩ 7).1.free = ⟨[], 1⟩ :=
  ⟨⟨⟨false, 1⟩, by decide, rfl⟩,
   C2_fifo_handoff id ⟨⟨[], 1⟩, 1, [⟨true, 0⟩, ⟨false, 1⟩, ⟨false, 2⟩]⟩ 7
     ⟨⟨false, 1⟩, by decide, rfl⟩⟩

/-! ### Distinct instances -/

/-- One event keeps the held and the free instances pairwise distinct, and keeps
all of them results of creator calls made so far. -/
theorem World.step_distinct (creator : Nat → Item) (hinj : Function.Injective creator)
    (grow : Nat → Nat) (w w1 : World) (c : Call) (hs : step creator grow w c = some w1)
    (hn : (w.held ++ w.pool.free.elems).Nodup)
    (hc : ∀ x ∈ w.held ++ w.pool.free.elems, ∃ k, k < w.created ∧ x = creator k) :
    (w1.held ++ w1.pool.free.elems).Nodup ∧
      ∀ x ∈ w1.held ++ w1.pool.free.elems, ∃ k, k < w1.created ∧ x = creator k := by
  cases c with
  | get d =>
    cases hfe : w.pool.free.elems with
    | cons res rest =>
      rw [hfe] at hn hc
      simp only [step, Get, hfe, Option.some.injEq] at hs
      subst hs
      simp only [Slice.tail, hfe, List.tail_cons, List.cons_append]
      refine ⟨List.nodup_middle.mp hn, ?_⟩
      intro x hx
      apply hc x
      simp only [List.mem_cons, List.mem_append] at hx ⊢
      tauto
    | nil =>
      rw [hfe] at hn hc
      by_cases hlt : w.pool.used < (w.pool.free.cap : Int)
      · simp only [step, Get, hfe, if_pos hlt, Option.some.injEq] at hs
        subst hs
        simp only [hfe, List.append_nil] at hn hc ⊢
        refine ⟨List.nodup_cons.mpr ⟨?_, hn⟩, ?_⟩
        · intro hmem
          obtain ⟨k, hk, hx⟩ := hc _ hmem
          have := hinj hx
          omega
        · intro x hx
          rcases List.mem_cons.mp hx with rfl | hx
          · exact ⟨w.created, by omega, rfl⟩
          · obtain ⟨k, hk, hx⟩ := hc x hx
            exact ⟨k, by omega, hx⟩
      · simp only [step, Get, hfe, if_neg hlt, Option.some.injEq] at hs
        subst hs
        simp only [hfe]
        exact ⟨hn, hc⟩
  | put item =>
    by_cases hmem : item ∈ w.held
    · simp only [step, if_pos hmem, Put] at hs
      cases hscan : Put.scan w.pool.queue with
      | some r =>
        simp only [hscan, Option.some.injEq] at hs
        subst hs
        exact ⟨hn, hc⟩
      | none =>
        simp only [hscan, Option.some.injEq] at hs
        subst hs
        have hel : (w.pool.free.append grow item).elems = w.pool.free.elems ++ [item] := by
          unfold Slice.append
          split <;> rfl
        simp only [hel]
        have hperm : (w.held.erase item ++ (w.pool.free.elems ++ [item])).Perm
            (w.held ++ w.pool.free.elems) := by
          have h1 : (w.held.erase item ++ (w.pool.free.elems ++ [item])).Perm
              (item :: (w.held.erase item ++ w.pool.free.elems)) := by
            rw [← List.append_assoc]
            exact List.perm_append_singleton _ _
          have h2 : (item :: (w.held.erase item ++ w.pool.free.elems)).Perm
              (w.held ++ w.pool.free.elems) := by
            have := (List.perm_cons_erase hmem).symm
            exact (this.append_right w.pool.free.elems)
          exact h1.trans h2
        refine ⟨hperm.nodup_iff.mpr hn, ?_⟩
        intro x hx
        exact hc x (hperm.mem_iff.mp hx)
    · simp [step, hmem] at hs
  | cancel wait =>
    simp only [step, Option.some.injEq] at hs
    subst hs
    exact ⟨hn, hc⟩

theorem World.run_distinct (creator : Nat → Item) (hinj : Function.Injective creator)
    (grow : Nat → Nat) (cs : List Call) :
    ∀ w w1 : World, run creator grow w cs = some w1 →
      (w.held ++ w.pool.free.elems).Nodup →
      (∀ x ∈ w.held ++ w.pool.free.elems, ∃ k, k < w.created ∧ x = creator k) →
      (w1.held ++ w1.pool.free.elems).Nodup ∧
        ∀ x ∈ w1.held ++ w1.pool.free.elems, ∃ k, k < w1.created ∧ x = creator k := by
  induction cs with
  | nil =>
    intro w w1 hr hn hc
    simp only [run, Option.some.injEq] at hr
    subst hr
    exact ⟨hn, hc⟩
  | cons c cs ih =>
    intro w w1 hr hn hc
    simp only [run] at hr
    cases hstep : step creator grow w c with
    | none => simp [hstep] at hr
    | some w2 =>
      simp only [hstep] at hr
      obtain ⟨hn2, hc2⟩ := step_distinct creator hinj grow w w2 c hstep hn hc
      exact ih w2 w1 hr hn2 hc2

/-- C3 (no double delivery).  With a creator that returns a different instance
at every call, in every state reached from `New(limit, creator)` by calls of
`Get` and `Put` (each `Put` returning a held instance) and by cancellations, the
instances held by callers and the instances in `free` are pairwise distinct: no
instance is held twice, and no held instance is in `free`. -/
theorem C3_no_double_delivery (creator : Nat → Item) (hinj : Function.Injective creator)
    (grow : Nat → Nat) (limit : Nat) (w : World) (hw : Reachable creator grow limit w) :
    (w.held ++ w.pool.free.elems).Nodup ∧ w.held.Nodup ∧
      ∀ x ∈ w.held, x ∉ w.pool.free.elems := by
  obtain ⟨cs, hr⟩ := hw
  have h := (run_distinct creator hinj grow cs (init limit) w hr (by simp [init, New, Slice.make])
    (by simp [init, New, Slice.make])).1
  refine ⟨h, (List.nodup_append.mp h).1, ?_⟩
  intro x hx hf
  exact (List.nodup_append.mp h).2.2 hx hf

/-- Witness of C3: the state after Get, Get, Put(0), Get on a pool of limit 2,
with the creator returning 0, 1, 2, ... -/
theorem C3_no_double_delivery_witness :
    Function.Injective (id : Nat → Item) ∧
    Reachable id id 2 ⟨⟨⟨[], 1⟩, 2, []⟩, [0, 1], 2, 0⟩ ∧
    ((([0, 1] : List Item) ++ ([] : List Item)).Nodup ∧ ([0, 1] : List Item).Nodup ∧
      ∀ x ∈ ([0, 1] : List Item), x ∉ ([] : List Item)) :=
  ⟨Function.injective_id,
   ⟨[.get false, .get false, .put 0, .get false], by decide⟩,
   C3_no_double_delivery id Function.injective_id id 2 ⟨⟨⟨[], 1⟩, 2, []⟩, [0, 1], 2, 0⟩
     ⟨[.get false, .get false, .put 0, .get false], by decide⟩⟩

/-! ### Count and the capacity read back from `free` -/

/-- C4 (Count), evaluated at a failing input.  On `New(3, creator)`, after Get,
Put of the instance obtained and Get again, `cap(this.free)` is 2 and `Count()`
returns `(1, 1)`, not `(used, limit - used) = (1, 2)`; this holds for every
creator and every growth policy of `append`. -/
theorem C4_count_after_reuse (creator : Nat → Item) (grow : Nat → Nat) :
    ∃ w : World,
      run creator grow (init 3) [.get false, .put (creator 0), .get false] = some w ∧
      w.pool.used = 1 ∧ w.pool.free.cap = 2 ∧ Count w.pool = (1, 1) ∧
      Count w.pool ≠ (w.pool.used, 3 - w.pool.used) := by
  refine ⟨⟨⟨⟨[], 2⟩, 1, []⟩, [creator 0], 1, 0⟩, ?_, rfl, rfl, rfl, ?_⟩
  · simp [run, step, Get, Put, Put.scan, Put.skipped, Slice.append, Slice.tail, Slice.len, init,
      New, Slice.make]
  · intro h
    have h2 := congrArg Prod.snd h
    simp only [Count] at h2
    omega

/-- C5 (waiters only when exhausted), evaluated at a failing input.  On
`New(2, creator)`, after Get, Put of the instance obtained and Get again,
`cap(this.free)` is 1, so one more Get queues a waiter although `used = 1` is
below the limit 2. -/
theorem C5_waiter_below_limit (creator : Nat → Item) (grow : Nat → Nat) :
    ∃ w : World,
      run creator grow (init 2) [.get false, .put (creator 0), .get false, .get false]
        = some w ∧
      w.pool.queue = [⟨false, 0⟩] ∧ w.pool.free.elems = [] ∧ w.pool.used = 1 ∧
      w.pool.used ≠ 2 ∧ w.created = 1 := by
  refine ⟨⟨⟨⟨[], 1⟩, 1, [⟨false, 0⟩]⟩, [creator 0], 1, 0 + 1⟩, ?_, rfl, rfl, rfl, by simp, rfl⟩
  simp [run, step, Get, Put, Put.scan, Put.skipped, Slice.append, Slice.tail, Slice.len, init,
    New, Slice.make]

/-! ### Put without a deliverable waiter, Get with an idle instance -/

theorem LimitedPool.Slice.append_elems (grow : Nat → Nat) (s : Slice) (x : Item) :
    (s.append grow x).elems = s.elems ++ [x] := by
  unfold Slice.append
  split <;> rfl

/-- C6 (Put stores the item).  If the queue is empty or every queued waiter's
cancellation signal has fired, `Put(x)` sends `x` to no waiter, closes the
channel of every queued waiter, leaves the queue empty, appends `x` at the end
of `free` and decrements `used` by one. -/
theorem C6_put_stores (grow : Nat → Nat) (p : LimitedPool) (x : Item)
    (h : p.queue = [] ∨ ∀ w ∈ p.queue, w.done = true) :
    (Put grow p x).2.delivered = none ∧ (Put grow p x).2.closed = p.queue ∧
      (Put grow p x).1.queue = [] ∧
      (Put grow p x).1.free.elems = p.free.elems ++ [x] ∧
      (Put grow p x).1.used = p.used - 1 := by
  have hall : ∀ w ∈ p.queue, w.done = true := by
    rcases h with h | h
    · simp [h]
    · exact h
  obtain ⟨hscan, hskip⟩ := Put.scan_all_done p.queue hall
  simp [Put, hscan, hskip, Slice.append_elems]

/-- Witness of C6: two cancelled waiters are queued. -/
theorem C6_put_stores_witness :
    ((⟨⟨[4], 2⟩, 2, [⟨true, 0⟩, ⟨true, 1⟩]⟩ : LimitedPool).queue = [] ∨
      ∀ w ∈ (⟨⟨[4], 2⟩, 2, [⟨true, 0⟩, ⟨true, 1⟩]⟩ : LimitedPool).queue, w.done = true) ∧
    ((Put id ⟨⟨[4], 2⟩, 2, [⟨true, 0⟩, ⟨true, 1⟩]⟩ 9).2.delivered = none ∧
      (Put id ⟨⟨[4], 2⟩, 2, [⟨true, 0⟩, ⟨true, 1⟩]⟩ 9).2.closed = [⟨true, 0⟩, ⟨true, 1⟩] ∧
      (Put id ⟨⟨[4], 2⟩, 2, [⟨true, 0⟩, ⟨true, 1⟩]⟩ 9).1.queue = [] ∧
      (Put id ⟨⟨[4], 2⟩, 2, [⟨true, 0⟩, ⟨true, 1⟩]⟩ 9).1.free.elems = [4] ++ [9] ∧
      (Put id ⟨⟨[4], 2⟩, 2, [⟨true, 0⟩, ⟨true, 1⟩]⟩ 9).1.used = 2 - 1) :=
  ⟨Or.inr (by decide), C6_put_stores id ⟨⟨[4], 2⟩, 2, [⟨true, 0⟩, ⟨true, 1⟩]⟩ 9
    (Or.inr (by decide))⟩

/-- C7 (Get prefers an idle instance).  When `free` is not empty, `Get` returns
its first element: the creator is not called and no waiter is queued; `free`
loses its first element and keeps the rest in order, `used` goes up by one and
the queue is unchanged. -/
theorem C7_get_prefers_idle (p : LimitedPool) (ctxDone : Bool) (wait : Nat)
    (h : p.free.elems ≠ []) :
    ∃ res rest, p.free.elems = res :: rest ∧
      (Get p ctxDone wait).2 = .taken res ∧
      (Get p ctxDone wait).1.free.elems = rest ∧
      (Get p ctxDone wait).1.used = p.used + 1 ∧
      (Get p ctxDone wait).1.queue = p.queue := by
  cases hfe : p.free.elems with
  | nil => exact absurd hfe h
  | cons res rest =>
    refine ⟨res, rest, rfl, ?_⟩
    simp [Get, hfe, Slice.tail]

/-- Witness of C7: a pool with two idle instances and a stale waiter. -/
theorem C7_get_prefers_idle_witness :
    (⟨⟨[5, 6], 2⟩, 0, [⟨true, 3⟩]⟩ : LimitedPool).free.elems ≠ [] ∧
    ∃ res rest, (⟨⟨[5, 6], 2⟩, 0, [⟨true, 3⟩]⟩ : LimitedPool).free.elems = res :: rest ∧
      (Get ⟨⟨[5, 6], 2⟩, 0, [⟨true, 3⟩]⟩ false 4).2 = .taken res ∧
      (Get ⟨⟨[5, 6], 2⟩, 0, [⟨true, 3⟩]⟩ false 4).1.free.elems = rest ∧
      (Get ⟨⟨[5, 6], 2⟩, 0, [⟨true, 3⟩]⟩ false 4).1.used = 0 + 1 ∧
      (Get ⟨⟨[5, 6], 2⟩, 0, [⟨true, 3⟩]⟩ false 4).1.queue = [⟨true, 3⟩] :=
  ⟨by decide, C7_get_prefers_idle ⟨⟨[5, 6], 2⟩, 0, [⟨true, 3⟩]⟩ false 4 (by decide)⟩

/-! ### Sequences of Put and of Get -/

/-- With no waiter queued, calls of `Put` store their instances in order. -/
theorem LimitedPool.Puts_spec (grow : Nat → Nat) (xs : List Item) :
    ∀ p : LimitedPool, p.queue = [] →
      (Puts grow p xs).queue = [] ∧ (Puts grow p xs).free.elems = p.free.elems ++ xs ∧
        (Puts grow p xs).used = p.used - xs.length := by
  induction xs with
  | nil => intro p hq; simp [Puts, hq]
  | cons x xs ih =>
    intro p hq
    have h1 : (Put grow p x).1.queue = [] := by simp [Put, hq, Put.scan]
    have h2 : (Put grow p x).1.free.elems = p.free.elems ++ [x] := by
      simp [Put, hq, Put.scan, Slice.append_elems]
    have h3 : (Put grow p x).1.used = p.used - 1 := by simp [Put, hq, Put.scan]
    obtain ⟨i1, i2, i3⟩ := ih (Put grow p x).1 h1
    refine ⟨by simpa [Puts] using i1, ?_, ?_⟩
    · simp only [Puts, i2, h2, List.append_assoc, List.singleton_append]
    · simp only [Puts, i3, h3, List.length_cons, Nat.cast_add, Nat.cast_one]
      omega

/-- While the instances fit, calls of `Put` keep the capacity of `free`. -/
theorem LimitedPool.Puts_cap (grow : Nat → Nat) (xs : List Item) :
    ∀ p : LimitedPool, p.queue = [] → p.free.elems.length + xs.length ≤ p.free.cap →
      (Puts grow p xs).free.cap = p.free.cap := by
  induction xs with
  | nil => intro p _ _; rfl
  | cons x xs ih =>
    intro p hq hlen
    simp only [List.length_cons] at hlen
    have h1 : (Put grow p x).1.queue = [] := by simp [Put, hq, Put.scan]
    have h2 : (Put grow p x).1.free.elems = p.free.elems ++ [x] := by
      simp [Put, hq, Put.scan, Slice.append_elems]
    have hlt : p.free.len < p.free.cap := by simp only [Slice.len]; omega
    have h3 : (Put grow p x).1.free.cap = p.free.cap := by
      simp [Put, hq, Put.scan, Slice.append, hlt]
    have hfit : (Put grow p x).1.free.elems.length + xs.length ≤ (Put grow p x).1.free.cap := by
      rw [h2, h3, List.length_append, List.length_singleton]
      omega
    have := ih (Put grow p x).1 h1 hfit
    simp only [Puts, this, h3]

/-- Calls of `Get` on a pool whose `free` starts with `xs` return them in order. -/
theorem LimitedPool.Gets_taken (xs : List Item) :
    ∀ (ctxs : List (Bool × Nat)) (p : LimitedPool) (rest : List Item),
      p.free.elems = xs ++ rest → ctxs.length = xs.length →
      (Gets p ctxs).2 = xs.map .taken ∧ (Gets p ctxs).1.free.elems = rest ∧
        (Gets p ctxs).1.used = p.used + xs.length ∧ (Gets p ctxs).1.queue = p.queue := by
  induction xs with
  | nil =>
    intro ctxs p rest hf hc
    have : ctxs = [] := List.length_eq_zero.mp (by simpa using hc)
    subst this
    simpa [Gets] using hf
  | cons x xs ih =>
    intro ctxs p rest hf hc
    cases ctxs with
    | nil => simp at hc
    | cons c cs =>
      obtain ⟨d, wt⟩ := c
      have hg : Get p d wt = ({ p with free := p.free.tail, used := p.used + 1 }, .taken x) := by
        simp [Get, hf]
      have hf1 : (Get p d wt).1.free.elems = xs ++ rest := by
        rw [hg]; simp [Slice.tail, hf]
      obtain ⟨i1, i2, i3, i4⟩ := ih cs (Get p d wt).1 rest hf1 (by simpa using hc)
      refine ⟨?_, ?_, ?_, ?_⟩
      · simp only [Gets, i1, List.map_cons]
        rw [hg]
      · simpa only [Gets] using i2
      · simp only [Gets, i3, List.length_cons, Nat.cast_add, Nat.cast_one]
        rw [hg]
        simp only
        omega
      · simp only [Gets, i4]
        rw [hg]

/-- While `used` stays below `cap(this.free)` and `free` is empty, calls of
`Get` take the create-fresh path. -/
theorem LimitedPool.Gets_fresh (ctxs : List (Bool × Nat)) :
    ∀ p : LimitedPool, p.free.elems = [] → p.used + ctxs.length ≤ (p.free.cap : Int) →
      Gets p ctxs = ({ p with used := p.used + ctxs.length },
        List.replicate ctxs.length .fresh) := by
  induction ctxs with
  | nil => intro p _ _; simp [Gets]
  | cons c cs ih =>
    intro p hf hle
    obtain ⟨d, wt⟩ := c
    simp only [List.length_cons, Nat.cast_add, Nat.cast_one] at hle
    have hlt : p.used < (p.free.cap : Int) := by omega
    have hg : Get p d wt = ({ p with used := p.used + 1 }, .fresh) := by
      simp [Get, hf, hlt]
    have := ih { p with used := p.used + 1 } hf (by simp only; omega)
    simp only [Gets, hg, this, List.length_cons, List.replicate_succ, Nat.cast_add, Nat.cast_one]
    congr 2
    omega

/-- C8 (reuse round trip in FIFO order).  On a pool with no waiter and an empty
`free`, for every `k` the calls `Put(x1)`, ..., `Put(xk)` followed by `k` calls of `Get` make
the calls of `Get` return `x1`, ..., `xk` in this order, each taken from `free`
(the creator is not called); afterwards `used` and the contents of `free` are
what they were before the first `Put`, and no waiter is queued. -/
theorem C8_reuse_fifo (grow : Nat → Nat) (p : LimitedPool) (xs : List Item)
    (ctxs : List (Bool × Nat)) (hq : p.queue = []) (hf : p.free.elems = [])
    (hc : ctxs.length = xs.length) :
    (Gets (Puts grow p xs) ctxs).2 = xs.map .taken ∧
      (Gets (Puts grow p xs) ctxs).1.used = p.used ∧
      (Gets (Puts grow p xs) ctxs).1.free.elems = p.free.elems ∧
      (Gets (Puts grow p xs) ctxs).1.queue = [] := by
  obtain ⟨h1, h2, h3⟩ := Puts_spec grow xs p hq
  obtain ⟨i1, i2, i3, i4⟩ := Gets_taken xs ctxs (Puts grow p xs) [] (by simp [h2, hf]) hc
  refine ⟨i1, ?_, ?_, ?_⟩
  · rw [i3, h3]; omega
  · rw [i2, hf]
  · rw [i4, h1]

/-- Witness of C8: a pool of capacity 2 with both instances out; they come back
as 8, 3 and are handed out again as 8, 3. -/
theorem C8_reuse_fifo_witness :
    (⟨⟨[], 2⟩, 2, []⟩ : LimitedPool).queue = [] ∧
    (⟨⟨[], 2⟩, 2, []⟩ : LimitedPool).free.elems = [] ∧
    ([(false, 0), (false, 0)] : List (Bool × Nat)).length = ([8, 3] : List Item).length ∧
    ((Gets (Puts id ⟨⟨[], 2⟩, 2, []⟩ [8, 3]) [(false, 0), (false, 0)]).2
        = ([8, 3] : List Item).map .taken ∧
      (Gets (Puts id ⟨⟨[], 2⟩, 2, []⟩ [8, 3]) [(false, 0), (false, 0)]).1.used = 2 ∧
      (Gets (Puts id ⟨⟨[], 2⟩, 2, []⟩ [8, 3]) [(false, 0), (false, 0)]).1.free.elems = [] ∧
      (Gets (Puts id ⟨⟨[], 2⟩, 2, []⟩ [8, 3]) [(false, 0), (false, 0)]).1.queue = []) :=
  ⟨rfl, rfl, rfl,
   C8_reuse_fifo id ⟨⟨[], 2⟩, 2, []⟩ [8, 3] [(false, 0), (false, 0)] rfl rfl rfl⟩

/-! ### Cancellation, and Count on a fresh pool -/

/-- A `Get` with a cancelled context on a pool whose `free` is empty and whose
`used` is not below `cap(this.free)`: it queues its waiter, does not call the
creator and leaves `used` and `free` unchanged; with no `Put` sending to it, the
only ready case of its `select` is the cancellation, so it returns `nil`.  If it
is the only waiter, a later `Put(x)` sends `x` to nobody, closes that waiter's
channel, puts `x` in `free` and decrements `used`. -/
theorem LimitedPool.Get_cancelled_parks (grow : Nat → Nat) (p : LimitedPool) (wait : Nat)
    (x : Item) (hf : p.free.elems = []) (hu : ¬ p.used < (p.free.cap : Int)) :
    (Get p true wait).2 = .parked ⟨true, wait⟩ ∧ (Get p true wait).2 ≠ .fresh ∧
      Get.select none true = [none] ∧
      (Get p true wait).1.used = p.used ∧ (Get p true wait).1.free = p.free ∧
      (Get p true wait).1.queue = p.queue ++ [⟨true, wait⟩] ∧
      (p.queue = [] →
        (Put grow (Get p true wait).1 x).2 = ⟨none, [⟨true, wait⟩]⟩ ∧
        (Put grow (Get p true wait).1 x).1.free.elems = [x] ∧
        (Put grow (Get p true wait).1 x).1.used = p.used - 1 ∧
        (Put grow (Get p true wait).1 x).1.queue = []) := by
  have hg : Get p true wait = ({ p with queue := p.queue ++ [⟨true, wait⟩] },
      .parked ⟨true, wait⟩) := by
    simp [Get, hf, hu]
  refine ⟨by rw [hg], by rw [hg]; simp, by simp [Get.select], by rw [hg], by rw [hg],
    by rw [hg], ?_⟩
  intro hq
  rw [hg]
  simp [Put, Put.scan, Put.skipped, hq, Slice.append_elems, hf]

/-- C9 (a cancelled Get returns nil without leaking), evaluated at a failing
input.  On `New(26, creator)` with a creator returning the instances 0, 1, 2,
..., the calls `exhaust` are all possible and leave the pool exhausted: `free`
is empty, no waiter is queued and `used = 26` is the limit, with 26 instances
held.  Whenever `append` on the full slice of capacity 25 allocates capacity 53
or more, `cap(this.free)` is above 26 there, and a `Get` whose context is
already cancelled takes the create-fresh path: it queues no waiter, calls the
creator, returns the new instance 26 and not `nil`, and sets `used = 27`. -/
theorem C9_cancelled_get_creates (grow : Nat → Nat) (h : 53 ≤ grow 25) :
    ∃ w : World, run id grow (init 26) exhaust = some w ∧
      w.pool.free.elems = [] ∧ w.pool.queue = [] ∧ w.pool.used = 26 ∧ w.held.length = 26 ∧
      (26 : Int) < (w.pool.free.cap : Int) ∧
      (Get w.pool true w.chans).2 = .fresh ∧
      (Get w.pool true w.chans).1.queue = [] ∧
      (Get w.pool true w.chans).1.used = 27 ∧
      (Get.call w.pool true w.chans (some (id w.created))).2 = .value 26 := by
  have hsplit : exhaust = (List.replicate 26 (.get false) ++ (List.range 26).map .put
      ++ [.get false]) ++ ([.put 0] ++ List.replicate ((List.range 26).tail ++ [0]).length
        (.get false)) := by decide
  rw [hsplit, run_append, run_overrun_prefix, Option.some_bind, run_append]
  have hput : run id grow ⟨⟨⟨(List.range 26).tail, 25⟩, 1, []⟩, [0], 26, 0⟩ [.put 0]
      = some ⟨⟨⟨(List.range 26).tail ++ [0], max 26 (grow 25)⟩, 0, []⟩, [], 26, 0⟩ := by
    simp [run, step, Put, Put.scan, Slice.append, Slice.len]
  rw [hput, Option.some_bind, run_get_free]
  have hlen : ((List.range 26).tail ++ [0]).length = 26 := by decide
  rw [hlen]
  have hcap : ((0 : Int) + (26 : Nat) < ((max 26 (grow 25) - 26 : Nat) : Int)) := by
    have : 53 ≤ max 26 (grow 25) := le_trans h (le_max_right _ _)
    omega
  have hbig : 53 ≤ max 26 (grow 25) := le_trans h (le_max_right _ _)
  have hget : ∀ wt : Nat,
      Get ⟨⟨[], max 26 (grow 25) - 26⟩, 0 + ((26 : Nat) : Int), []⟩ true wt
        = (⟨⟨[], max 26 (grow 25) - 26⟩, 0 + ((26 : Nat) : Int) + 1, []⟩, .fresh) := by
    intro wt
    simp only [Get, if_pos hcap]
  refine ⟨_, rfl, rfl, rfl, by norm_num, by simp, ?_, ?_, ?_, ?_, ?_⟩
  · simp only
    omega
  · rw [hget]
  · rw [hget]
  · rw [hget]
    norm_num
  · simp only [Get.call, hget]
    rfl

/-- Witness of C9: the gc runtime's growth, which allocates capacity 55 for the
full slice of capacity 25, so that `cap(this.free)` is 29 at the exhausted
pool. -/
theorem C9_cancelled_get_creates_witness :
    53 ≤ gcGrow 25 ∧ ∃ w : World, run id gcGrow (init 26) exhaust = some w ∧
      w.pool.free.elems = [] ∧ w.pool.queue = [] ∧ w.pool.used = 26 ∧ w.held.length = 26 ∧
      (26 : Int) < (w.pool.free.cap : Int) ∧
      (Get w.pool true w.chans).2 = .fresh ∧
      (Get w.pool true w.chans).1.queue = [] ∧
      (Get w.pool true w.chans).1.used = 27 ∧
      (Get.call w.pool true w.chans (some (id w.created))).2 = .value 26 :=
  ⟨by decide, C9_cancelled_get_creates gcGrow (by decide)⟩

/-- C10 (Count on a fresh pool).  For every `n` and `j <= k <= n`: on `New(n,
creator)` the first `k` calls of `Get` all take the create-fresh path and
`Count()` then returns `(k, n - k)`; after `j` further calls of `Put` (of any
instances, so also of held ones) `Count()` returns `(k - j, n - k + j)`. -/
theorem C10_count_fresh (grow : Nat → Nat) (n k j : Nat) (hjk : j ≤ k)
    (hkn : k ≤ n) (ctxs : List (Bool × Nat)) (hctxs : ctxs.length = k) (xs : List Item)
    (hxs : xs.length = j) :
    (Gets (New n) ctxs).2 = List.replicate k .fresh ∧
      Count (Gets (New n) ctxs).1 = ((k : Int), (n : Int) - k) ∧
      Count (Puts grow (Gets (New n) ctxs).1 xs) = ((k : Int) - j, (n : Int) - k + j) := by
  have hg : Gets (New n) ctxs = ({ New n with used := (New n).used + ctxs.length },
      List.replicate ctxs.length .fresh) :=
    Gets_fresh ctxs (New n) rfl (by simp only [New, Slice.make]; omega)
  have hq : (Gets (New n) ctxs).1.queue = [] := by rw [hg]; rfl
  have hfit : (Gets (New n) ctxs).1.free.elems.length + xs.length
      ≤ (Gets (New n) ctxs).1.free.cap := by
    rw [hg]
    simp only [New, Slice.make, List.length_nil]
    omega
  obtain ⟨-, -, h3⟩ := Puts_spec grow xs (Gets (New n) ctxs).1 hq
  have h4 := Puts_cap grow xs (Gets (New n) ctxs).1 hq hfit
  refine ⟨by rw [hg, hctxs], ?_, ?_⟩
  · rw [hg]
    simp only [Count, New, Slice.make, hctxs, zero_add]
  · simp only [Count, h3, h4]
    rw [hg]
    simp only [New, Slice.make, hctxs, hxs, zero_add]
    congr 1
    omega

/-- Witness of C10: the case n = 3, k = 2, j = 1, with `Count()` going from
`(2, 1)` to `(1, 2)`. -/
theorem C10_count_fresh_witness :
    1 ≤ 2 ∧ 2 ≤ 3 ∧
    ((Gets (New 3) [(false, 0), (false, 0)]).2 = List.replicate 2 .fresh ∧
      Count (Gets (New 3) [(false, 0), (false, 0)]).1 = (((2 : Nat) : Int), ((3 : Nat) : Int) - (2 : Nat)) ∧
      Count (Puts id (Gets (New 3) [(false, 0), (false, 0)]).1 [0])
        = (((2 : Nat) : Int) - (1 : Nat), ((3 : Nat) : Int) - (2 : Nat) + (1 : Nat))) ∧
    Count (Gets (New 3) [(false, 0), (false, 0)]).1 = (2, 1) ∧
    Count (Puts id (Gets (New 3) [(false, 0), (false, 0)]).1 [0]) = (1, 2) :=
  ⟨by decide, by decide,
   C10_count_fresh id 3 2 1 (by decide) (by decide) [(false, 0), (false, 0)] rfl
     [0] rfl, by decide, by decide⟩

/-! ### The number of held instances -/

/-- One event keeps `used` equal to the number of held instances. -/
theorem World.step_used (creator : Nat → Item) (grow : Nat → Nat) (w w1 : World) (c : Call)
    (hs : step creator grow w c = some w1) (hu : w.pool.used = (w.held.length : Int)) :
    w1.pool.used = (w1.held.length : Int) := by
  cases c with
  | get d =>
    cases hfe : w.pool.free.elems with
    | cons res rest =>
      simp only [step, Get, hfe, Option.some.injEq] at hs
      subst hs
      simp only [List.length_cons, Nat.cast_add, Nat.cast_one, hu]
    | nil =>
      by_cases hlt : w.pool.used < (w.pool.free.cap : Int)
      · simp only [step, Get, hfe, if_pos hlt, Option.some.injEq] at hs
        subst hs
        simp only [List.length_cons, Nat.cast_add, Nat.cast_one, hu]
      · simp only [step, Get, hfe, if_neg hlt, Option.some.injEq] at hs
        subst hs
        exact hu
  | put item =>
    by_cases hmem : item ∈ w.held
    · simp only [step, if_pos hmem, Put] at hs
      cases hscan : Put.scan w.pool.queue with
      | some r =>
        simp only [hscan, Option.some.injEq] at hs
        subst hs
        exact hu
      | none =>
        simp only [hscan, Option.some.injEq] at hs
        subst hs
        have hpos : 0 < w.held.length := List.length_pos_of_mem hmem
        simp only [List.length_erase_of_mem hmem, hu]
        omega
    · simp [step, hmem] at hs
  | cancel wait =>
    simp only [step, Option.some.injEq] at hs
    subst hs
    exact hu

theorem World.run_used (creator : Nat → Item) (grow : Nat → Nat) (cs : List Call) :
    ∀ w w1 : World, run creator grow w cs = some w1 →
      w.pool.used = (w.held.length : Int) → w1.pool.used = (w1.held.length : Int) := by
  induction cs with
  | nil =>
    intro w w1 hr hu
    simp only [run, Option.some.injEq] at hr
    subst hr
    exact hu
  | cons c cs ih =>
    intro w w1 hr hu
    simp only [run] at hr
    cases hstep : step creator grow w c with
    | none => simp [hstep] at hr
    | some w2 =>
      simp only [hstep] at hr
      exact ih w2 w1 hr (step_used creator grow w w2 c hstep hu)

/-- C11 (`used` counts the checked-out instances).  In every state reached from
`New(limit, creator)` by calls of `Get` and `Put` (each `Put` returning a held
instance) and by cancellations, `used` is the number of instances held by
callers, those received by hand-off included; so `used >= 0`.  From such a state
a `Put` that hands its instance to a waiter leaves `used` unchanged, and a `Get`
that blocks, and the cancellation that makes it return `nil`, leave `used` and
the held instances unchanged. -/
theorem C11_used_counts_held (creator : Nat → Item) (grow : Nat → Nat) (limit : Nat) (w : World)
    (hw : Reachable creator grow limit w) :
    w.pool.used = (w.held.length : Int) ∧ 0 ≤ w.pool.used ∧
      (∀ x cc, (Put grow w.pool x).2.delivered = some (cc, x) →
        (Put grow w.pool x).1.used = w.pool.used) ∧
      (∀ d cc w1, (Get w.pool d w.chans).2 = .parked cc →
        step creator grow w (.get d) = some w1 →
        w1.pool.used = w.pool.used ∧ w1.held = w.held) ∧
      (∀ wt w1, step creator grow w (.cancel wt) = some w1 →
        w1.pool.used = w.pool.used ∧ w1.held = w.held) := by
  obtain ⟨cs, hr⟩ := hw
  have hu : w.pool.used = (w.held.length : Int) :=
    run_used creator grow cs (init limit) w hr (by simp [init, New])
  refine ⟨hu, by rw [hu]; exact Int.natCast_nonneg _, ?_, ?_, ?_⟩
  · intro x cc hd
    unfold Put at hd ⊢
    cases hscan : Put.scan w.pool.queue with
    | some r => simp only
    | none => simp [hscan] at hd
  · intro d cc w1 hp hs
    have hq : Get w.pool d w.chans = ((Get w.pool d w.chans).1, .parked cc) := by
      rw [← hp]
    have hused : (Get w.pool d w.chans).1.used = w.pool.used := by
      unfold Get at hp ⊢
      split
      · rename_i res rest hfe
        simp [hfe] at hp
      · rename_i hfe
        by_cases hlt : w.pool.used < (w.pool.free.cap : Int)
        · simp [hfe, hlt] at hp
        · simp [hlt]
    simp only [step] at hs
    rw [hq] at hs
    simp only [Option.some.injEq] at hs
    subst hs
    exact ⟨hused, rfl⟩
  · intro wt w1 hs
    simp only [step, Option.some.injEq] at hs
    subst hs
    exact ⟨rfl, rfl⟩

/-- Witness of C11: capacity 1, one instance out and one waiter blocked. -/
theorem C11_used_counts_held_witness :
    Reachable id id 1 ⟨⟨⟨[], 1⟩, 1, [⟨false, 0⟩]⟩, [0], 1, 1⟩ ∧
    (⟨⟨⟨[], 1⟩, 1, [⟨false, 0⟩]⟩, [0], 1, 1⟩ : World).pool.used
      = (((⟨⟨⟨[], 1⟩, 1, [⟨false, 0⟩]⟩, [0], 1, 1⟩ : World).held.length : Nat) : Int) :=
  ⟨⟨[.get false, .get false], by decide⟩,
   (C11_used_counts_held id id 1 ⟨⟨⟨[], 1⟩, 1, [⟨false, 0⟩]⟩, [0], 1, 1⟩
     ⟨[.get false, .get false], by decide⟩).1⟩

/-! ### A creator that panics -/

/-- C12 (factory failure), the claim refuted at `New(1, creator)` with a creator
that panics: the first `Get` takes the create-fresh path, the panic reaches
the caller, and `used` is 1 afterwards, not its value 0 before the call. -/
theorem C12_factory_failure_leaks :
    (New 1).free.elems = [] ∧ (New 1).used < ((New 1).free.cap : Int) ∧
      (Get (New 1) false 0).2 = .fresh ∧
      (Get.call (New 1) false 0 none).2 = .panic ∧
      (Get.call (New 1) false 0 none).1.used = 1 ∧
      ¬ ((Get.call (New 1) false 0 none).1.used = (New 1).used) := by
  decide

/-- C12 as amended.  On a pool with `free` empty and `used` below
`cap(this.free)`, a `Get` takes the create-fresh path; if the creator panics,
the panic reaches the caller of `Get`, `used` stays one above its value before
the call, and `free` and the queue are unchanged. -/
theorem C12_factory_failure_keeps_slot (p : LimitedPool) (ctxDone : Bool) (wait : Nat)
    (hf : p.free.elems = []) (hu : p.used < (p.free.cap : Int)) :
    (Get p ctxDone wait).2 = .fresh ∧
      (Get.call p ctxDone wait none).2 = .panic ∧
      (Get.call p ctxDone wait none).1.used = p.used + 1 ∧
      (Get.call p ctxDone wait none).1.free = p.free ∧
      (Get.call p ctxDone wait none).1.queue = p.queue := by
  have hg : Get p ctxDone wait = ({ p with used := p.used + 1 }, .fresh) := by
    simp [Get, hf, hu]
  simp [Get.call, hg]

/-- Witness of the amended C12: a fresh pool of limit 2. -/
theorem C12_factory_failure_keeps_slot_witness :
    (New 2).free.elems = [] ∧ (New 2).used < ((New 2).free.cap : Int) ∧
    ((Get (New 2) false 0).2 = .fresh ∧
      (Get.call (New 2) false 0 none).2 = .panic ∧
      (Get.call (New 2) false 0 none).1.used = (New 2).used + 1 ∧
      (Get.call (New 2) false 0 none).1.free = (New 2).free ∧
      (Get.call (New 2) false 0 none).1.queue = (New 2).queue) :=
  ⟨rfl, by decide, C12_factory_failure_keeps_slot (New 2) false 0 rfl (by decide)⟩

/-! ### The capacity of `free` -/

/-- C14 (the capacity read back is constant), evaluated at a failing input.  On
`New(limit + 1, creator)`, after Get, Put of the instance obtained and Get
again, `cap(this.free)` is `limit`, one below the limit passed to `New`; this
holds for every creator and every growth policy of `append`. -/
theorem C14_capacity_drops (creator : Nat → Item) (grow : Nat → Nat) (limit : Nat) :
    ∃ w : World,
      run creator grow (init (limit + 1)) [.get false, .put (creator 0), .get false] = some w ∧
      w.pool.free.cap = limit ∧ w.pool.free.cap ≠ limit + 1 := by
  have h0 : (0 : Int) < ((limit + 1 : Nat) : Int) := by omega
  have h1 : (0 : Nat) < limit + 1 := by omega
  refine ⟨⟨⟨⟨[], limit⟩, 1, []⟩, [creator 0], 1, 0⟩, ?_, rfl, by simp⟩
  simp [run, step, Get, Put, Put.scan, Put.skipped, Slice.append, Slice.tail, Slice.len, init,
    New, Slice.make, h0, h1]

/-! ### Waiters visited by Put -/

theorem LimitedPool.Put.scan_split (q : List CtxChan) :
    (∀ cc rest, Put.scan q = some (cc, rest) → q = Put.skipped q ++ cc :: rest) ∧
      (Put.scan q = none → Put.skipped q = q) := by
  induction q with
  | nil => simp [Put.scan, Put.skipped]
  | cons w q ih =>
    by_cases hw : w.done = true
    · simp only [Put.scan, Put.skipped, hw, if_true, List.cons_append, List.cons.injEq, true_and]
      exact ih
    · have hw2 : w.done = false := by simpa using hw
      constructor
      · intro cc rest h
        simp only [Put.scan, hw2, Bool.false_eq_true, if_false, Option.some.injEq,
          Prod.mk.injEq] at h
        obtain ⟨h1, h2⟩ := h
        subst h1 h2
        simp [Put.skipped, hw2]
      · intro h
        simp [Put.scan, hw2] at h

/-- The queue before a `Put` is the visited waiters followed by the queue
after it. -/
theorem LimitedPool.Put_queue_split (grow : Nat → Nat) (p : LimitedPool) (x : Item) :
    p.queue = (Put grow p x).2.visited ++ (Put grow p x).1.queue := by
  unfold Put
  cases hscan : Put.scan p.queue with
  | some r =>
    obtain ⟨cc, rest⟩ := r
    simp only [PutResult.visited, List.append_assoc, List.singleton_append]
    exact (Put.scan_split p.queue).1 cc rest hscan
  | none =>
    simp only [PutResult.visited, List.append_nil]
    exact ((Put.scan_split p.queue).2 hscan).symm

theorem World.waits_fire (wt : Nat) (q : List CtxChan) :
    (fire wt q).map CtxChan.wait = q.map CtxChan.wait := by
  induction q with
  | nil => rfl
  | cons cc q ih =>
    simp only [fire, List.map_cons, List.map_map] at ih ⊢
    by_cases h : cc.wait = wt
    · simp [h, ih]
    · simp [h, ih]

/-- One event keeps the queued channels distinct and among the channels made,
and closes only queued channels that are not queued afterwards. -/
theorem World.step_waits (creator : Nat → Item) (grow : Nat → Nat) (w w1 : World) (c : Call)
    (hs : step creator grow w c = some w1) (hnd : w.waits.Nodup)
    (hlt : ∀ i ∈ w.waits, i < w.chans) :
    w1.waits.Nodup ∧ (∀ i ∈ w1.waits, i < w1.chans) ∧ w.chans ≤ w1.chans ∧
      (∀ i ∈ w1.waits, i ∈ w.waits ∨ w.chans ≤ i) ∧
      (closedBy grow w c).Nodup ∧
      (∀ i ∈ closedBy grow w c, i ∈ w.waits ∧ i ∉ w1.waits) := by
  cases c with
  | get d =>
    have hnil : closedBy grow w (.get d) = [] := rfl
    rw [hnil]
    cases hfe : w.pool.free.elems with
    | cons res rest =>
      simp only [step, Get, hfe, Option.some.injEq] at hs
      subst hs
      exact ⟨hnd, hlt, le_refl _, fun i hi => Or.inl hi, List.nodup_nil, by simp⟩
    | nil =>
      by_cases hlt2 : w.pool.used < (w.pool.free.cap : Int)
      · simp only [step, Get, hfe, if_pos hlt2, Option.some.injEq] at hs
        subst hs
        exact ⟨hnd, hlt, le_refl _, fun i hi => Or.inl hi, List.nodup_nil, by simp⟩
      · simp only [step, Get, hfe, if_neg hlt2, Option.some.injEq] at hs
        subst hs
        simp only [waits, List.map_append, List.map_cons, List.map_nil] at hnd hlt ⊢
        refine ⟨?_, ?_, by omega, ?_, List.nodup_nil, by simp⟩
        · rw [List.nodup_append]
          refine ⟨hnd, by simp, ?_⟩
          intro a ha hb
          simp only [List.mem_singleton] at hb
          have := hlt a ha
          omega
        · intro i hi
          rcases List.mem_append.mp hi with hi | hi
          · have := hlt i hi
            omega
          · simp only [List.mem_singleton] at hi
            omega
        · intro i hi
          rcases List.mem_append.mp hi with hi | hi
          · exact Or.inl hi
          · simp only [List.mem_singleton] at hi
            exact Or.inr (by omega)
  | put item =>
    by_cases hmem : item ∈ w.held
    · have hsplit := Put_queue_split grow w.pool item
      have hpool : w1.pool = (Put grow w.pool item).1 ∧ w1.chans = w.chans := by
        simp only [step, if_pos hmem] at hs
        split at hs
        · rename_i p r1 r2 heq
          simp only [Option.some.injEq] at hs
          subst hs
          rw [heq]
          exact ⟨rfl, rfl⟩
        · rename_i p r2 heq
          simp only [Option.some.injEq] at hs
          subst hs
          rw [heq]
          exact ⟨rfl, rfl⟩
      obtain ⟨hp, hc⟩ := hpool
      have hw : w.waits = (Put grow w.pool item).2.visited.map CtxChan.wait ++ w1.waits := by
        simp only [waits, hp, ← List.map_append, ← hsplit]
      simp only [closedBy, if_pos hmem]
      rw [hw] at hnd
      have hnd2 := List.nodup_append.mp hnd
      refine ⟨hnd2.2.1, ?_, by omega, ?_, hnd2.1, ?_⟩
      · intro i hi
        rw [hc]
        exact hlt i (by rw [hw]; exact List.mem_append_right _ hi)
      · intro i hi
        exact Or.inl (by rw [hw]; exact List.mem_append_right _ hi)
      · intro i hi
        exact ⟨by rw [hw]; exact List.mem_append_left _ hi, fun h => hnd2.2.2 hi h⟩
    · simp [step, hmem] at hs
  | cancel wt =>
    simp only [step, Option.some.injEq] at hs
    subst hs
    have hnil : closedBy grow w (.cancel wt) = [] := rfl
    rw [hnil]
    have hsame : (⟨{ w.pool with queue := fire wt w.pool.queue }, w.held, w.created,
        w.chans⟩ : World).waits = w.waits := by
      simp only [waits, waits_fire]
    rw [hsame]
    exact ⟨hnd, hlt, le_refl _, fun i hi => Or.inl hi, List.nodup_nil, by simp⟩

theorem World.closedBy_of_step_none (creator : Nat → Item) (grow : Nat → Nat) (w : World)
    (c : Call) (hs : step creator grow w c = none) : closedBy grow w c = [] := by
  cases c with
  | get d =>
    rfl
  | put item =>
    by_cases hmem : item ∈ w.held
    · exfalso
      simp only [step, if_pos hmem] at hs
      split at hs <;> simp at hs
    · simp [closedBy, hmem]
  | cancel wt =>
    rfl

/-- Over a sequence of events no channel is closed twice, and every channel
closed was queued at the start or made later. -/
theorem World.closeLog_nodup (creator : Nat → Item) (grow : Nat → Nat) (cs : List Call) :
    ∀ w : World, w.waits.Nodup → (∀ i ∈ w.waits, i < w.chans) →
      (closeLog creator grow w cs).Nodup ∧
        ∀ i ∈ closeLog creator grow w cs, i ∈ w.waits ∨ w.chans ≤ i := by
  induction cs with
  | nil =>
    intro w _ _
    simp [closeLog]
  | cons c cs ih =>
    intro w hnd hlt
    cases hstep : step creator grow w c with
    | none =>
      simp [closeLog, hstep, closedBy_of_step_none creator grow w c hstep]
    | some w1 =>
      obtain ⟨hnd1, hlt1, hle, hsub, hcn, hcm⟩ := step_waits creator grow w w1 c hstep hnd hlt
      obtain ⟨ihn, ihm⟩ := ih w1 hnd1 hlt1
      simp only [closeLog, hstep]
      constructor
      · rw [List.nodup_append]
        refine ⟨hcn, ihn, ?_⟩
        intro i hi hj
        obtain ⟨hiw, hiw1⟩ := hcm i hi
        rcases ihm i hj with h | h
        · exact hiw1 h
        · have := hlt i hiw
          omega
      · intro i hi
        rcases List.mem_append.mp hi with hi | hi
        · exact Or.inl (hcm i hi).1
        · rcases ihm i hi with h | h
          · exact hsub i h
          · exact Or.inr (by omega)

theorem World.sentBy_sublist (grow : Nat → Nat) (w : World) (c : Call) :
    (sentBy grow w c).Sublist (closedBy grow w c) := by
  cases c with
  | get d => exact List.Sublist.refl _
  | put item =>
    by_cases hmem : item ∈ w.held
    · simp only [sentBy, closedBy, if_pos hmem, PutResult.visited, List.map_append]
      cases (Put grow w.pool item).2.delivered with
      | none => simp
      | some r => simp
    · simp [sentBy, closedBy, hmem]
  | cancel wt => exact List.Sublist.refl _

theorem World.sendLog_sublist (creator : Nat → Item) (grow : Nat → Nat) (cs : List Call) :
    ∀ w : World, (sendLog creator grow w cs).Sublist (closeLog creator grow w cs) := by
  induction cs with
  | nil => intro w; exact List.Sublist.refl _
  | cons c cs ih =>
    intro w
    simp only [sendLog, closeLog]
    apply List.Sublist.append (sentBy_sublist grow w c)
    cases step creator grow w c with
    | none => exact List.Sublist.refl _
    | some w1 => exact ih w1

/-- C15 (every waiter a Put examines leaves the queue).  For every pool state
and item, the queue before `Put` is the waiters the scan visits (skipped as
cancelled, or sent to) followed by the queue after `Put`: the waiters not
visited stay, in their order.  When the queued waiters are distinct (each `Get`
queues a new `ctxChan` with a channel of its own), no visited waiter is in the
queue after `Put`, and over any sequence of events from such a state no
channel is closed twice and no channel is sent an instance twice. -/
theorem C15_visited_leave_queue (creator : Nat → Item) (grow : Nat → Nat) (w : World)
    (x : Item) (cs : List Call) (hnd : w.waits.Nodup) (hlt : ∀ i ∈ w.waits, i < w.chans) :
    (∀ (p : LimitedPool) (y : Item),
        p.queue = (Put grow p y).2.visited ++ (Put grow p y).1.queue) ∧
      (∀ cc ∈ (Put grow w.pool x).2.visited,
        cc ∉ (Put grow w.pool x).1.queue ∧
        cc.wait ∉ (Put grow w.pool x).1.queue.map CtxChan.wait) ∧
      (closeLog creator grow w cs).Nodup ∧ (sendLog creator grow w cs).Nodup := by
  have hcl := (closeLog_nodup creator grow cs w hnd hlt).1
  refine ⟨fun p y => Put_queue_split grow p y, ?_, hcl,
    (sendLog_sublist creator grow cs w).nodup hcl⟩
  intro cc hcc
  have hsplit := Put_queue_split grow w.pool x
  have hw : w.waits = (Put grow w.pool x).2.visited.map CtxChan.wait
      ++ (Put grow w.pool x).1.queue.map CtxChan.wait := by
    simp only [waits, ← List.map_append, ← hsplit]
  rw [hw] at hnd
  have hdisj := (List.nodup_append.mp hnd).2.2
  have hnot : cc.wait ∉ (Put grow w.pool x).1.queue.map CtxChan.wait :=
    fun h => hdisj (List.mem_map_of_mem _ hcc) h
  exact ⟨fun h => hnot (List.mem_map_of_mem _ h), hnot⟩

/-- Witness of C15: three waiters, the first cancelled; one instance held.  The
`Put` closes channels 0 and 1 and sends on channel 1; after the last waiter is
cancelled, a second `Put` closes channel 2. -/
theorem C15_visited_leave_queue_witness :
    (⟨⟨⟨[], 1⟩, 1, [⟨true, 0⟩, ⟨false, 1⟩, ⟨false, 2⟩]⟩, [5], 1, 3⟩ : World).waits.Nodup ∧
    (∀ i ∈ (⟨⟨⟨[], 1⟩, 1, [⟨true, 0⟩, ⟨false, 1⟩, ⟨false, 2⟩]⟩, [5], 1, 3⟩ : World).waits,
      i < 3) ∧
    closeLog id id ⟨⟨⟨[], 1⟩, 1, [⟨true, 0⟩, ⟨false, 1⟩, ⟨false, 2⟩]⟩, [5], 1, 3⟩
      [.put 5, .cancel 2, .put 5] = [0, 1, 2] ∧
    sendLog id id ⟨⟨⟨[], 1⟩, 1, [⟨true, 0⟩, ⟨false, 1⟩, ⟨false, 2⟩]⟩, [5], 1, 3⟩
      [.put 5, .cancel 2, .put 5] = [1] ∧
    (closeLog id id ⟨⟨⟨[], 1⟩, 1, [⟨true, 0⟩, ⟨false, 1⟩, ⟨false, 2⟩]⟩, [5], 1, 3⟩
      [.put 5, .cancel 2, .put 5]).Nodup :=
  ⟨by decide, by decide, by decide, by decide,
   (C15_visited_leave_queue id id
     ⟨⟨⟨[], 1⟩, 1, [⟨true, 0⟩, ⟨false, 1⟩, ⟨false, 2⟩]⟩, [5], 1, 3⟩ 5
     [.put 5, .cancel 2, .put 5] (by decide) (by decide)).2.2.1⟩
